import Mathlib

/-!
# Verification of `slotmapvec` (src/lib.rs)

Shallow embedding of the `SlotMapVec` generational-handle container.

Modelling conventions:
* The backing `Vec<Entry<T>>` is a `List (Entry T)`; `Vec::push` is append,
  `entries[i] = x` is `List.set`, `entries.get(i)` is `l[i]?`.
* The `u32`/`usize` fields (`slot`, `version`, `next_free`, `len`) are `Nat`.
  Version-counter wrap after 2^32 reuse cycles is an explicit non-goal of the
  design (spec §1), so version arithmetic is modelled unbounded.
* A Rust `panic!` / out-of-bounds index / `unreachable!` is modelled as
  `Option.none`: `insert` returns `Option (SlotMapVec T × SlotMapIndex)` where
  `none` is the `"inconsistent internal state"` panic (or an out-of-bounds
  access at `next_free`), and the `Index`/`IndexMut` implementations are
  modelled as `Option`-valued lookups where `none` is the `"invalid key"` panic.
* Iterators are modelled as the finite list of items they produce.
-/

namespace SlotMapVecSpec

/-- Content of one storage slot: a link to the next free slot, or a stored
value.  Embeds `enum Occupation<T>` from src/lib.rs. -/
inductive Occupation (T : Type) where
  | Free : Nat → Occupation T
  | Occupied : T → Occupation T
  deriving DecidableEq

/-- One backing-store entry: a version counter paired with the slot content.
Embeds `struct Entry<T>` from src/lib.rs. -/
structure Entry (T : Type) where
  version : Nat
  content : Occupation T
  deriving DecidableEq

/-- A handle into the container: (slot position, version).  Embeds
`struct SlotMapIndex` from src/lib.rs. -/
structure SlotMapIndex where
  slot : Nat
  version : Nat
  deriving DecidableEq

/-- Container state.  Embeds `struct SlotMapVec<T>`: backing entries, the
offset `next_free` of the head of the free list (equal to `entries.length`
when there are no free slots), and the number `len` of stored values. -/
structure SlotMapVec (T : Type) where
  entries : List (Entry T)
  next_free : Nat
  len : Nat
  deriving DecidableEq

/-- `true` iff the slot content is the `Free` variant. -/
def Occupation.isFree : Occupation T → Bool
  | .Free _ => true
  | .Occupied _ => false

/-- `true` iff the slot content is the `Occupied` variant. -/
def Occupation.isOccupied : Occupation T → Bool
  | .Free _ => false
  | .Occupied _ => true

namespace SlotMapVec

variable {T : Type}

/-- `SlotMapVec::with_capacity`.  Capacity only pre-allocates; it creates no
entries and does not otherwise affect behaviour, so the resulting state does
not record it. -/
def with_capacity (T : Type) (capacity : Nat) : SlotMapVec T :=
  { entries := [], len := 0, next_free := 0 }

/-- `SlotMapVec::new`: `with_capacity(0)`. -/
def new (T : Type) : SlotMapVec T :=
  with_capacity T 0

/-- `Default::default` for `SlotMapVec`: `SlotMapVec::new()`. -/
def mkDefault (T : Type) : SlotMapVec T :=
  new T

/-- `SlotMapVec::is_empty`. -/
def is_empty (m : SlotMapVec T) : Bool :=
  m.len == 0

/-- `SlotMapVec::get`.  Bounds-checked lookup: `some` value iff the slot is in
range, `Occupied`, and the version matches. -/
def get (m : SlotMapVec T) (key : SlotMapIndex) : Option T :=
  match m.entries[key.slot]? with
  | some e =>
    match e.content with
    | .Occupied obj => if e.version = key.version then some obj else none
    | .Free _ => none
  | none => none

/-- `SlotMapVec::get_mut`.  Performs the same lookup as `get`; the returned
mutable reference is modelled by the value it points to. -/
def get_mut (m : SlotMapVec T) (key : SlotMapIndex) : Option T :=
  match m.entries[key.slot]? with
  | some e =>
    match e.content with
    | .Occupied obj => if e.version = key.version then some obj else none
    | .Free _ => none
  | none => none

/-- `SlotMapVec::insert`.  `none` models a panic: either the
`"inconsistent internal state"` branch (the entry at `next_free` is not
`Free`), or the out-of-bounds access `entries[next_free]` when
`next_free > entries.len()` — neither is reachable through the public
interface (see the free-list invariant below). -/
def insert (m : SlotMapVec T) (val : T) : Option (SlotMapVec T × SlotMapIndex) :=
  if m.next_free = m.entries.length then
    some ({ entries := m.entries ++ [{ version := 0, content := .Occupied val }],
            next_free := m.next_free + 1,
            len := m.len + 1 },
          { slot := m.next_free, version := 0 })
  else
    match m.entries[m.next_free]? with
    | some prev =>
      match prev.content with
      | .Free next =>
        some ({ entries := m.entries.set m.next_free
                  { version := prev.version + 1, content := .Occupied val },
                next_free := next,
                len := m.len + 1 },
              { slot := m.next_free, version := prev.version + 1 })
      | .Occupied _ => none
    | none => none

/-- `SlotMapVec::remove`.  Returns the removed value (or `none`) together with
the resulting state; an invalid key leaves the state untouched. -/
def remove (m : SlotMapVec T) (key : SlotMapIndex) : Option T × SlotMapVec T :=
  match m.entries[key.slot]? with
  | some entry =>
    if entry.version ≠ key.version then
      (none, m)
    else
      match entry.content with
      | .Free _ => (none, m)
      | .Occupied o =>
        (some o,
         { entries := m.entries.set key.slot
             { version := entry.version, content := .Free m.next_free },
           next_free := key.slot,
           len := m.len - 1 })
  | none => (none, m)

/-- `SlotMapVec::contains`: same validity check as `get`. -/
def contains (m : SlotMapVec T) (key : SlotMapIndex) : Bool :=
  match m.entries[key.slot]? with
  | some e =>
    match e.content with
    | .Occupied _ => e.version == key.version
    | .Free _ => false
  | none => false

/-- `ops::Index::index` for `SlotMapVec`.  `none` models the `"invalid key"`
panic (stale version or free slot) and the out-of-bounds indexing panic. -/
def index (m : SlotMapVec T) (key : SlotMapIndex) : Option T :=
  match m.entries[key.slot]? with
  | some e =>
    match e.content with
    | .Occupied obj => if e.version ≠ key.version then none else some obj
    | .Free _ => none
  | none => none

/-- `ops::IndexMut::index_mut` for `SlotMapVec`: the identical lookup, with
the mutable reference modelled by the value it points to; `none` models the
`"invalid key"` / out-of-bounds panics. -/
def index_mut (m : SlotMapVec T) (key : SlotMapIndex) : Option T :=
  match m.entries[key.slot]? with
  | some e =>
    match e.content with
    | .Occupied obj => if e.version ≠ key.version then none else some obj
    | .Free _ => none
  | none => none

/-- The items produced by `Iter` (`Iter::next` in src/lib.rs) when the slice
iterator stands at storage position `curr`: one `(handle, value)` pair per
`Occupied` entry, in increasing position order, skipping `Free` entries. -/
def iterFrom : List (Entry T) → Nat → List (SlotMapIndex × T)
  | [], _ => []
  | e :: rest, curr =>
    match e.content with
    | .Occupied v =>
      ({ slot := curr, version := e.version }, v) :: iterFrom rest (curr + 1)
    | .Free _ => iterFrom rest (curr + 1)

/-- `SlotMapVec::iter`, modelled as the full (finite) list of items the
iterator yields. -/
def iter (m : SlotMapVec T) : List (SlotMapIndex × T) :=
  iterFrom m.entries 0

/-- Number of `Occupied` entries in a backing store. -/
def countOccupied : List (Entry T) → Nat
  | [] => 0
  | e :: rest =>
    match e.content with
    | .Occupied _ => countOccupied rest + 1
    | .Free _ => countOccupied rest

/-- `true` iff position `p` is in range and holds a `Free` entry. -/
def isFreeAt (entries : List (Entry T)) (p : Nat) : Bool :=
  match entries[p]? with
  | some e => e.content.isFree
  | none => false

/-- The version counter stored at position `p` (0 if out of range). -/
def versionAt (entries : List (Entry T)) (p : Nat) : Nat :=
  match entries[p]? with
  | some e => e.version
  | none => 0

/-- Folding `insert` over a list of values; `none` if any insertion panics. -/
def insertMany : SlotMapVec T → List T → Option (SlotMapVec T)
  | m, [] => some m
  | m, v :: vs =>
    match m.insert v with
    | some (m', _) => insertMany m' vs
    | none => none

/-- Folding `remove` over a list of keys, requiring every removal to
succeed. -/
def removeAll : SlotMapVec T → List SlotMapIndex → Option (SlotMapVec T)
  | m, [] => some m
  | m, k :: ks =>
    match m.remove k with
    | (some _, m') => removeAll m' ks
    | (none, _) => none

/-- One public-interface mutation step: a successful (non-panicking) `insert`,
or a `remove` with an arbitrary key (including invalid ones, which leave the
state unchanged). -/
inductive Step : SlotMapVec T → SlotMapVec T → Prop where
  | ins {m m' : SlotMapVec T} {k : SlotMapIndex} (v : T)
      (h : m.insert v = some (m', k)) : Step m m'
  | rem {m : SlotMapVec T} (k : SlotMapIndex) : Step m (m.remove k).2

/-- Reachability by insert/remove steps from an arbitrary start state. -/
def ReachFrom (m m' : SlotMapVec T) : Prop :=
  Relation.ReflTransGen Step m m'

/-- States reachable from a new container through the public interface. -/
def Reachable (m : SlotMapVec T) : Prop :=
  ReachFrom (new T) m

/-- Reachability that also records every handle `insert` has issued. -/
inductive ReachableH : SlotMapVec T → List SlotMapIndex → Prop where
  | base : ReachableH (new T) []
  | ins {m m' : SlotMapVec T} {hs : List SlotMapIndex} {k : SlotMapIndex} (v : T)
      (hr : ReachableH m hs) (h : m.insert v = some (m', k)) :
      ReachableH m' (k :: hs)
  | rem {m : SlotMapVec T} {hs : List SlotMapIndex} (k : SlotMapIndex)
      (hr : ReachableH m hs) : ReachableH (m.remove k).2 hs

/-- The free-list chain: `FreeChain entries p ps` says that starting at
position `p` and following the `Free` links, the positions `ps` are visited
and the chain terminates when the link value equals `entries.length`. -/
inductive FreeChain (entries : List (Entry T)) : Nat → List Nat → Prop where
  | nil : FreeChain entries entries.length []
  | cons {p next : Nat} {e : Entry T} {ps : List Nat}
      (he : entries[p]? = some e)
      (hfree : e.content = Occupation.Free next)
      (rest : FreeChain entries next ps) :
      FreeChain entries p (p :: ps)

/-- The container invariant (spec §3): `len` counts the `Occupied` entries,
and the free list, followed from `next_free`, visits every free entry exactly
once and terminates at `entries.length`. -/
structure Inv (m : SlotMapVec T) : Prop where
  len_eq : m.len = countOccupied m.entries
  chain : ∃ ps : List Nat,
    FreeChain m.entries m.next_free ps ∧ ps.Nodup ∧
    ∀ p, p ∈ ps ↔ isFreeAt m.entries p = true

/-! ### Basic counting lemmas -/

theorem countOccupied_le_length (es : List (Entry T)) :
    countOccupied es ≤ es.length := by
  induction es with
  | nil => simp [countOccupied]
  | cons e rest ih =>
    cases h : e.content <;> simp [countOccupied, h] <;> omega

theorem countOccupied_append_occupied (es : List (Entry T)) (w : Nat) (x : T) :
    countOccupied (es ++ [{ version := w, content := .Occupied x }]) =
      countOccupied es + 1 := by
  induction es with
  | nil => simp [countOccupied]
  | cons e rest ih => cases h : e.content <;> simp [countOccupied, h, ih]

theorem exists_free_of_lt {es : List (Entry T)}
    (h : countOccupied es < es.length) : ∃ p, isFreeAt es p = true := by
  induction es with
  | nil => simp at h
  | cons e rest ih =>
    cases hc : e.content with
    | Free n => exact ⟨0, by simp [isFreeAt, hc, Occupation.isFree]⟩
    | Occupied x =>
      have hlt : countOccupied rest < rest.length := by
        simp [countOccupied, hc] at h; omega
      obtain ⟨p, hp⟩ := ih hlt
      exact ⟨p + 1, by simpa [isFreeAt] using hp⟩

theorem not_free_of_eq_length {es : List (Entry T)}
    (h : countOccupied es = es.length) (p : Nat) : isFreeAt es p = false := by
  induction es generalizing p with
  | nil => simp [isFreeAt]
  | cons e rest ih =>
    cases hc : e.content with
    | Free n =>
      exfalso
      have h1 := countOccupied_le_length rest
      simp [countOccupied, hc] at h
      omega
    | Occupied x =>
      simp [countOccupied, hc] at h
      cases p with
      | zero => simp [isFreeAt, hc, Occupation.isFree]
      | succ p => simpa [isFreeAt] using ih h p

theorem countOccupied_set_occupied (es : List (Entry T)) (p : Nat)
    (hfree : isFreeAt es p = true) (w : Nat) (x : T) :
    countOccupied (es.set p { version := w, content := .Occupied x }) =
      countOccupied es + 1 := by
  induction es generalizing p with
  | nil => simp [isFreeAt] at hfree
  | cons e rest ih =>
    cases p with
    | zero =>
      have h1 : e.content.isFree = true := by simpa [isFreeAt] using hfree
      cases hc : e.content with
      | Free n => simp [countOccupied, hc]
      | Occupied y => rw [hc] at h1; simp [Occupation.isFree] at h1
    | succ p =>
      have h2 : isFreeAt rest p = true := by simpa [isFreeAt] using hfree
      cases hc : e.content <;> simp [countOccupied, hc, ih p h2]

theorem countOccupied_set_free (es : List (Entry T)) (p : Nat) (e : Entry T) (x : T)
    (he : es[p]? = some e) (hc : e.content = Occupation.Occupied x) (w n : Nat) :
    countOccupied es =
      countOccupied (es.set p { version := w, content := .Free n }) + 1 := by
  induction es generalizing p with
  | nil => simp at he
  | cons a rest ih =>
    cases p with
    | zero =>
      simp at he
      subst he
      simp [countOccupied, hc]
    | succ p =>
      simp at he
      cases ha : a.content <;> simp [countOccupied, ha, ih p he]

theorem countOccupied_pos (es : List (Entry T)) (p : Nat) (e : Entry T) (x : T)
    (he : es[p]? = some e) (hc : e.content = Occupation.Occupied x) :
    1 ≤ countOccupied es := by
  induction es generalizing p with
  | nil => simp at he
  | cons a rest ih =>
    cases p with
    | zero =>
      simp at he
      subst he
      simp [countOccupied, hc]
    | succ p =>
      simp at he
      cases ha : a.content <;> simp [countOccupied, ha] <;>
        exact Nat.le_trans (ih p he) (by omega)

/-! ### Free-chain lemmas -/

theorem FreeChain.mem_isFreeAt {es : List (Entry T)} {q : Nat} {ps : List Nat}
    (h : FreeChain es q ps) : ∀ p ∈ ps, isFreeAt es p = true := by
  induction h with
  | nil => simp
  | @cons p next e ps' he hfree rest ih =>
    intro r hr
    rcases List.mem_cons.mp hr with rfl | hr
    · simp [isFreeAt, he, hfree, Occupation.isFree]
    · exact ih r hr

theorem FreeChain.head_cases {es : List (Entry T)} {q : Nat} {ps : List Nat}
    (h : FreeChain es q ps) :
    (q = es.length ∧ ps = []) ∨
      ∃ e next ps', es[q]? = some e ∧ e.content = Occupation.Free next ∧
        ps = q :: ps' ∧ FreeChain es next ps' := by
  cases h with
  | nil => exact Or.inl ⟨rfl, rfl⟩
  | cons he hfree rest => exact Or.inr ⟨_, _, _, he, hfree, rfl, rest⟩

theorem FreeChain.eq_nil {es : List (Entry T)} {ps : List Nat}
    (h : FreeChain es es.length ps) : ps = [] := by
  rcases h.head_cases with ⟨_, h2⟩ | ⟨e, next, ps', he, _, _, _⟩
  · exact h2
  · rw [List.getElem?_eq_none (Nat.le_refl _)] at he
    simp at he

theorem FreeChain.set_preserve {es : List (Entry T)} {q s : Nat} {a : Entry T}
    {ps : List Nat} (h : FreeChain es q ps) :
    s ∉ ps → FreeChain (es.set s a) q ps := by
  induction h with
  | nil =>
    intro _
    simpa using (FreeChain.nil : FreeChain (es.set s a) (es.set s a).length [])
  | @cons p next e ps' he hfree rest ih =>
    intro hs
    have h1 : s ≠ p := by
      rintro rfl
      exact hs (List.mem_cons_self _ _)
    have h2 : s ∉ ps' := fun hx => hs (List.mem_cons_of_mem _ hx)
    exact FreeChain.cons (by rw [List.getElem?_set_ne h1]; exact he) hfree (ih h2)

/-! ### Characterizations of the lookup operations -/

theorem get_eq_some_iff {m : SlotMapVec T} {k : SlotMapIndex} {v : T} :
    get m k = some v ↔
      m.entries[k.slot]? = some { version := k.version, content := .Occupied v } := by
  unfold get
  cases he : m.entries[k.slot]? with
  | none => simp
  | some e =>
    obtain ⟨w, c⟩ := e
    cases hc : c with
    | Free n => simp [hc]
    | Occupied x =>
      subst hc
      by_cases hv : w = k.version
      · simp [hv]
      · simp only [if_neg hv]
        constructor
        · intro h; cases h
        · intro h
          simp at h
          exact absurd h.1 hv

theorem contains_eq_true_iff {m : SlotMapVec T} {k : SlotMapIndex} :
    contains m k = true ↔
      ∃ v, m.entries[k.slot]? =
        some { version := k.version, content := .Occupied v } := by
  unfold contains
  cases he : m.entries[k.slot]? with
  | none => simp
  | some e =>
    obtain ⟨w, c⟩ := e
    cases hc : c with
    | Free n => simp [hc]
    | Occupied x =>
      subst hc
      by_cases hv : w = k.version
      · simp [hv]
      · simp only [hv]
        constructor
        · intro h
          simp at h
          exact absurd h hv
        · rintro ⟨v, h⟩
          simp at h
          exact absurd h.1 hv

theorem contains_iff_get {m : SlotMapVec T} {k : SlotMapIndex} :
    contains m k = true ↔ ∃ v, get m k = some v := by
  simp [contains_eq_true_iff, get_eq_some_iff]

theorem get_mut_eq_get (m : SlotMapVec T) (k : SlotMapIndex) :
    get_mut m k = get m k := rfl

/-! ### Branch equations for `insert` and `remove` -/

theorem insert_grow (m : SlotMapVec T) (v : T)
    (h : m.next_free = m.entries.length) :
    m.insert v = some
      ({ entries := m.entries ++ [{ version := 0, content := .Occupied v }],
         next_free := m.next_free + 1, len := m.len + 1 },
       { slot := m.next_free, version := 0 }) := by
  simp [insert, h]

theorem insert_reuse (m : SlotMapVec T) (v : T) (e : Entry T) (next : Nat)
    (hne : m.next_free ≠ m.entries.length)
    (he : m.entries[m.next_free]? = some e)
    (hc : e.content = Occupation.Free next) :
    m.insert v = some
      ({ entries := m.entries.set m.next_free
           { version := e.version + 1, content := .Occupied v },
         next_free := next, len := m.len + 1 },
       { slot := m.next_free, version := e.version + 1 }) := by
  simp [insert, hne, he, hc]

theorem remove_fail (m : SlotMapVec T) (k : SlotMapIndex)
    (h : contains m k = false) : m.remove k = (none, m) := by
  cases he : m.entries[k.slot]? with
  | none => simp [remove, he]
  | some e =>
    obtain ⟨w, c⟩ := e
    cases hc : c with
    | Free n => simp [remove, he, hc]
    | Occupied x =>
      subst hc
      have hv : w ≠ k.version := by
        intro hv
        subst hv
        rw [contains_eq_true_iff.mpr ⟨x, he⟩] at h
        cases h
      simp [remove, he, hv]

theorem remove_success (m : SlotMapVec T) (k : SlotMapIndex) (e : Entry T) (x : T)
    (he : m.entries[k.slot]? = some e) (hv : e.version = k.version)
    (hc : e.content = Occupation.Occupied x) :
    m.remove k = (some x,
      { entries := m.entries.set k.slot
          { version := e.version, content := .Free m.next_free },
        next_free := k.slot, len := m.len - 1 }) := by
  simp [remove, he, hc, hv]

theorem remove_cases (m : SlotMapVec T) (k : SlotMapIndex) :
    m.remove k = (none, m) ∨
      ∃ e x, m.entries[k.slot]? = some e ∧ e.version = k.version ∧
        e.content = Occupation.Occupied x ∧
        m.remove k = (some x,
          { entries := m.entries.set k.slot
              { version := e.version, content := .Free m.next_free },
            next_free := k.slot, len := m.len - 1 }) := by
  cases hcon : contains m k with
  | false => exact Or.inl (remove_fail m k hcon)
  | true =>
    obtain ⟨v, he⟩ := contains_eq_true_iff.mp hcon
    exact Or.inr ⟨_, v, he, rfl, rfl, remove_success m k _ v he rfl rfl⟩

/-! ### Invariant preservation -/

theorem getElem?_concat_ne {α : Type _} (es : List α) (a : α) (p : Nat)
    (h : p ≠ es.length) : (es ++ [a])[p]? = es[p]? := by
  rcases Nat.lt_or_ge p es.length with hlt | hge
  · exact List.getElem?_append_left hlt
  · have h1 : es.length < p := Nat.lt_of_le_of_ne hge (Ne.symm h)
    rw [List.getElem?_eq_none (l := es ++ [a]) (by simp; omega),
        List.getElem?_eq_none hge]

theorem isFreeAt_append_occupied (es : List (Entry T)) (w : Nat) (x : T) (p : Nat) :
    isFreeAt (es ++ [{ version := w, content := .Occupied x }]) p
      = isFreeAt es p := by
  by_cases h : p = es.length
  · subst h
    rw [isFreeAt, isFreeAt, List.getElem?_concat_length,
        List.getElem?_eq_none (Nat.le_refl _)]
    rfl
  · rw [isFreeAt, isFreeAt, getElem?_concat_ne es _ p h]

theorem isFreeAt_set_ne (es : List (Entry T)) (a : Entry T) {s p : Nat}
    (h : s ≠ p) : isFreeAt (es.set s a) p = isFreeAt es p := by
  rw [isFreeAt, isFreeAt, List.getElem?_set_ne h]

theorem inv_new : Inv (new T) := by
  constructor
  · rfl
  · exact ⟨[], FreeChain.nil, by simp, by simp [isFreeAt, new, with_capacity]⟩

theorem insert_total {m : SlotMapVec T} (hinv : Inv m) (v : T) :
    ∃ m' k, m.insert v = some (m', k) ∧ Inv m' ∧
      k.slot = m.next_free ∧
      m'.len = m.len + 1 ∧
      m'.entries[k.slot]? = some { version := k.version, content := .Occupied v } ∧
      (∀ p, p ≠ k.slot → m'.entries[p]? = m.entries[p]?) ∧
      (m.next_free = m.entries.length →
        m'.entries.length = m.entries.length + 1 ∧ k.version = 0) ∧
      (m.next_free ≠ m.entries.length →
        m'.entries.length = m.entries.length ∧
        k.version = versionAt m.entries m.next_free + 1) := by
  by_cases hb : m.next_free = m.entries.length
  · refine ⟨_, _, insert_grow m v hb, ?_, rfl, rfl, ?_, ?_, ?_, ?_⟩
    · constructor
      · simp only [countOccupied_append_occupied]
        rw [hinv.len_eq]
      · obtain ⟨ps, hch, hnd, hmem⟩ := hinv.chain
        rw [hb] at hch
        have hps : ps = [] := hch.eq_nil
        subst hps
        refine ⟨[], ?_, by simp, ?_⟩
        · have hlen :
              (m.entries ++
                [({ version := 0, content := Occupation.Occupied v } : Entry T)]).length
                = m.next_free + 1 := by
            simp [hb]
          exact hlen ▸ FreeChain.nil
        · intro p
          rw [isFreeAt_append_occupied]
          exact hmem p
    · simp [hb, List.getElem?_concat_length]
    · intro p hp
      exact getElem?_concat_ne _ _ _ (fun hc => hp (hc.trans hb.symm))
    · intro _
      simp
    · intro hc
      exact absurd hb hc
  · obtain ⟨ps, hch, hnd, hmem⟩ := hinv.chain
    rcases hch.head_cases with ⟨h1, _⟩ | ⟨e, next, ps', he, hfree, hps, rest⟩
    · exact absurd h1 hb
    subst hps
    have hlt : m.next_free < m.entries.length :=
      (List.getElem?_eq_some.mp he).1
    have hnf : m.next_free ∉ ps' := (List.nodup_cons.mp hnd).1
    have hfreeAt : isFreeAt m.entries m.next_free = true := by
      simp [isFreeAt, he, hfree, Occupation.isFree]
    refine ⟨_, _, insert_reuse m v e next hb he hfree, ?_, rfl, rfl, ?_, ?_, ?_, ?_⟩
    · constructor
      · simp only [countOccupied_set_occupied _ _ hfreeAt]
        rw [hinv.len_eq]
      · refine ⟨ps', rest.set_preserve hnf, (List.nodup_cons.mp hnd).2, ?_⟩
        intro p
        by_cases hp : p = m.next_free
        · subst hp
          simp only [isFreeAt, List.getElem?_set_self hlt]
          constructor
          · intro h; exact absurd h hnf
          · intro h; exact absurd h (by simp [Occupation.isFree])
        · rw [isFreeAt_set_ne _ _ (fun h => hp h.symm)]
          rw [← hmem p]
          simp [List.mem_cons, hp]
    · simp [List.getElem?_set_self hlt]
    · intro p hp
      exact List.getElem?_set_ne (fun h => hp h.symm)
    · intro hc
      exact absurd hc hb
    · intro _
      refine ⟨by simp, ?_⟩
      simp [versionAt, he]

theorem remove_total {m : SlotMapVec T} (hinv : Inv m) (k : SlotMapIndex) :
    Inv (m.remove k).2 ∧
      (m.remove k).2.entries.length = m.entries.length ∧
      (∀ x, (m.remove k).1 = some x → (m.remove k).2.len + 1 = m.len) := by
  rcases remove_cases m k with heq | ⟨e, x, he, hv, hc, heq⟩
  · rw [heq]
    exact ⟨hinv, rfl, fun x hx => by cases hx⟩
  · have hlt : k.slot < m.entries.length := (List.getElem?_eq_some.mp he).1
    have hone : 1 ≤ countOccupied m.entries := countOccupied_pos _ _ _ _ he hc
    have hcnt := countOccupied_set_free m.entries k.slot e x he hc e.version m.next_free
    obtain ⟨ps, hch, hnd, hmem⟩ := hinv.chain
    have hnotin : k.slot ∉ ps := by
      intro hmemk
      have h2 := hch.mem_isFreeAt k.slot hmemk
      rw [isFreeAt, he] at h2
      simp [hc, Occupation.isFree] at h2
    rw [heq]
    refine ⟨⟨?_, ?_⟩, by simp, fun y hy => ?_⟩
    · simp only
      rw [hinv.len_eq] at *
      omega
    · refine ⟨k.slot :: ps, ?_, List.nodup_cons.mpr ⟨hnotin, hnd⟩, ?_⟩
      · exact FreeChain.cons (List.getElem?_set_self hlt) rfl
          (hch.set_preserve hnotin)
      · intro p
        by_cases hp : p = k.slot
        · subst hp
          simp [isFreeAt, List.getElem?_set_self hlt, Occupation.isFree]
        · rw [isFreeAt_set_ne _ _ (fun h => hp h.symm), ← hmem p]
          simp [List.mem_cons, hp]
    · simp only
      rw [hinv.len_eq]
      omega

theorem inv_step {m m' : SlotMapVec T} (hinv : Inv m) (h : Step m m') : Inv m' := by
  cases h with
  | ins v heq =>
    obtain ⟨m'', k', heq', hinv', _⟩ := insert_total hinv v
    rw [heq] at heq'
    cases heq'
    exact hinv'
  | rem k => exact (remove_total hinv k).1

theorem inv_reachFrom {m m' : SlotMapVec T} (hinv : Inv m)
    (h : ReachFrom m m') : Inv m' := by
  induction h with
  | refl => exact hinv
  | tail _ h2 ih => exact inv_step ih h2

theorem inv_reachable {m : SlotMapVec T} (h : Reachable m) : Inv m :=
  inv_reachFrom inv_new h

/-! ### Iterator lemmas -/

theorem insert_eq_elim {m m₁ m₂ : SlotMapVec T} {k₁ k₂ : SlotMapIndex} {v : T}
    (h1 : m.insert v = some (m₁, k₁)) (h2 : m.insert v = some (m₂, k₂)) :
    m₁ = m₂ ∧ k₁ = k₂ := by
  rw [h1] at h2
  simpa using h2

theorem mem_iterFrom {es : List (Entry T)} {c ks kv : Nat} {v : T} :
    (({ slot := ks, version := kv } : SlotMapIndex), v) ∈ iterFrom es c ↔
      ∃ j, ks = c + j ∧
        es[j]? = some { version := kv, content := .Occupied v } := by
  induction es generalizing c with
  | nil => simp [iterFrom]
  | cons e rest ih =>
    obtain ⟨w, ec⟩ := e
    cases ec with
    | Occupied x =>
      simp only [iterFrom, List.mem_cons]
      constructor
      · rintro (h | h)
        · simp only [Prod.mk.injEq, SlotMapIndex.mk.injEq] at h
          obtain ⟨⟨h1, h2⟩, h3⟩ := h
          exact ⟨0, by omega, by simp [h2, h3]⟩
        · obtain ⟨j, hj1, hj2⟩ := ih.mp h
          exact ⟨j + 1, by omega, by simpa using hj2⟩
      · rintro ⟨j, hj1, hj2⟩
        cases j with
        | zero =>
          simp only [List.getElem?_cons_zero, Option.some.injEq,
            Entry.mk.injEq, Occupation.Occupied.injEq] at hj2
          obtain ⟨hw, hx⟩ := hj2
          subst hw
          subst hx
          left
          have hks : ks = c := by omega
          subst hks
          rfl
        | succ j =>
          right
          exact ih.mpr ⟨j, by omega, by simpa using hj2⟩
    | Free n =>
      simp only [iterFrom]
      rw [ih]
      constructor
      · rintro ⟨j, hj1, hj2⟩
        exact ⟨j + 1, by omega, by simpa using hj2⟩
      · rintro ⟨j, hj1, hj2⟩
        cases j with
        | zero => simp at hj2
        | succ j => exact ⟨j, by omega, by simpa using hj2⟩

theorem mem_iter_iff {m : SlotMapVec T} {k : SlotMapIndex} {v : T} :
    (k, v) ∈ m.iter ↔ get m k = some v := by
  obtain ⟨ks, kv⟩ := k
  rw [iter, mem_iterFrom, get_eq_some_iff]
  constructor
  · rintro ⟨j, hj1, hj2⟩
    have hj : ks = j := by omega
    subst hj
    exact hj2
  · intro h
    exact ⟨ks, by omega, h⟩

theorem iterFrom_slot_ge {es : List (Entry T)} {c : Nat} :
    ∀ p ∈ iterFrom es c, c ≤ p.1.slot := by
  induction es generalizing c with
  | nil => simp [iterFrom]
  | cons e rest ih =>
    obtain ⟨w, ec⟩ := e
    cases ec with
    | Occupied x =>
      simp only [iterFrom, List.mem_cons]
      rintro p (rfl | hp)
      · simp
      · exact Nat.le_trans (Nat.le_succ c) (ih p hp)
    | Free n =>
      simp only [iterFrom]
      intro p hp
      exact Nat.le_trans (Nat.le_succ c) (ih p hp)

theorem iterFrom_pairwise {es : List (Entry T)} {c : Nat} :
    (iterFrom es c).Pairwise (fun a b => a.1.slot < b.1.slot) := by
  induction es generalizing c with
  | nil => simp [iterFrom]
  | cons e rest ih =>
    obtain ⟨w, ec⟩ := e
    cases ec with
    | Occupied x =>
      simp only [iterFrom]
      refine List.Pairwise.cons ?_ ih
      intro b hb
      have hge := iterFrom_slot_ge b hb
      simp only
      omega
    | Free n => simpa [iterFrom] using ih

theorem iterFrom_length (es : List (Entry T)) (c : Nat) :
    (iterFrom es c).length = countOccupied es := by
  induction es generalizing c with
  | nil => rfl
  | cons e rest ih =>
    obtain ⟨w, ec⟩ := e
    cases ec with
    | Occupied x => simp [iterFrom, countOccupied, ih]
    | Free n => simp [iterFrom, countOccupied, ih]

/-! ### Monotonicity of slot versions and storage length -/

theorem step_mono {m m' : SlotMapVec T} (hinv : Inv m) (h : Step m m') :
    m.entries.length ≤ m'.entries.length ∧
    ∀ p, versionAt m.entries p ≤ versionAt m'.entries p := by
  cases h with
  | ins v heq =>
    obtain ⟨m₂, k₂, heq', _, hslot, _, hat, hother, hgrow, hreuse⟩ :=
      insert_total hinv v
    obtain ⟨h1, h2⟩ := insert_eq_elim heq' heq
    subst h1
    subst h2
    constructor
    · by_cases hb : m.next_free = m.entries.length
      · rw [(hgrow hb).1]; omega
      · rw [(hreuse hb).1]
    · intro p
      by_cases hp : p = k₂.slot
      · subst hp
        have hv2 : versionAt m₂.entries k₂.slot = k₂.version := by
          simp [versionAt, hat]
        by_cases hb : m.next_free = m.entries.length
        · have h0 : versionAt m.entries k₂.slot = 0 := by
            rw [versionAt, hslot, hb, List.getElem?_eq_none (Nat.le_refl _)]
          omega
        · have hv1 := (hreuse hb).2
          rw [hv2, hslot, hv1]
          omega
      · rw [versionAt, versionAt, hother p hp]
  | rem k =>
    rcases remove_cases m k with heq | ⟨e, x, he, hv, hc, heq⟩
    · rw [heq]
      exact ⟨Nat.le_refl _, fun p => Nat.le_refl _⟩
    · rw [heq]
      refine ⟨by simp, ?_⟩
      intro p
      by_cases hp : p = k.slot
      · subst hp
        have hlt : k.slot < m.entries.length := (List.getElem?_eq_some.mp he).1
        simp [versionAt, he, List.getElem?_set_self hlt]
      · simp only
        rw [versionAt, versionAt, List.getElem?_set_ne (fun hh => hp hh.symm)]

theorem reachFrom_mono {m m' : SlotMapVec T} (hinv : Inv m)
    (h : ReachFrom m m') :
    m.entries.length ≤ m'.entries.length ∧
    ∀ p, versionAt m.entries p ≤ versionAt m'.entries p := by
  induction h with
  | refl => exact ⟨Nat.le_refl _, fun p => Nat.le_refl _⟩
  | tail h1 h2 ih =>
    have hinv' := inv_reachFrom hinv h1
    have hm := step_mono hinv' h2
    exact ⟨Nat.le_trans ih.1 hm.1, fun p => Nat.le_trans (ih.2 p) (hm.2 p)⟩

/-- A handle's version never exceeds the version currently stored at its
slot (for handles whose slot is in range). -/
def HandleOk (m : SlotMapVec T) (h : SlotMapIndex) : Prop :=
  h.slot < m.entries.length ∧ h.version ≤ versionAt m.entries h.slot

theorem reachableH_inv {m : SlotMapVec T} {hs : List SlotMapIndex}
    (h : ReachableH m hs) : Inv m ∧ ∀ x ∈ hs, HandleOk m x := by
  induction h with
  | base => exact ⟨inv_new, by simp⟩
  | @ins m m' hs k v hr heq ih =>
    obtain ⟨hinv, hall⟩ := ih
    obtain ⟨m₂, k₂, heq', hinv', hslot, _, hat, hother, hgrow, hreuse⟩ :=
      insert_total hinv v
    obtain ⟨h1, h2⟩ := insert_eq_elim heq' heq
    subst h1
    subst h2
    refine ⟨hinv', ?_⟩
    intro x hx
    rcases List.mem_cons.mp hx with rfl | hx
    · refine ⟨(List.getElem?_eq_some.mp hat).1, ?_⟩
      simp [versionAt, hat]
    · have hold := hall x hx
      have hmono := step_mono hinv (Step.ins v heq)
      exact ⟨Nat.lt_of_lt_of_le hold.1 hmono.1,
        Nat.le_trans hold.2 (hmono.2 _)⟩
  | @rem m hs k hr ih =>
    obtain ⟨hinv, hall⟩ := ih
    have hmono := step_mono hinv (Step.rem k)
    have hlen := (remove_total hinv k).2.1
    refine ⟨(remove_total hinv k).1, ?_⟩
    intro x hx
    have hold := hall x hx
    exact ⟨Nat.lt_of_lt_of_le hold.1 hmono.1, Nat.le_trans hold.2 (hmono.2 _)⟩

theorem contains_false_of_version_lt {m : SlotMapVec T} {h : SlotMapIndex}
    (hlt : h.version < versionAt m.entries h.slot) :
    contains m h = false ∧ get m h = none := by
  constructor
  · cases hcon : contains m h with
    | false => rfl
    | true =>
      obtain ⟨v, he⟩ := contains_eq_true_iff.mp hcon
      rw [versionAt, he] at hlt
      simp at hlt
  · cases hget : get m h with
    | none => rfl
    | some v =>
      have he := get_eq_some_iff.mp hget
      rw [versionAt, he] at hlt
      simp at hlt

/-! ### Storage-size accounting -/

theorem countOccupied_eq_length_of_no_free {es : List (Entry T)}
    (h : ∀ p, isFreeAt es p = false) : countOccupied es = es.length := by
  induction es with
  | nil => rfl
  | cons e rest ih =>
    obtain ⟨w, ec⟩ := e
    cases ec with
    | Free n =>
      have h0 := h 0
      simp [isFreeAt, Occupation.isFree] at h0
    | Occupied x =>
      have hr : ∀ p, isFreeAt rest p = false := by
        intro p
        have hp := h (p + 1)
        simpa [isFreeAt] using hp
      simp [countOccupied, ih hr]

theorem countOccupied_lt_of_free {es : List (Entry T)} {p : Nat}
    (h : isFreeAt es p = true) : countOccupied es < es.length := by
  induction es generalizing p with
  | nil => simp [isFreeAt] at h
  | cons e rest ih =>
    obtain ⟨w, ec⟩ := e
    cases p with
    | zero =>
      cases ec with
      | Free n =>
        have := countOccupied_le_length rest
        simp [countOccupied]
        omega
      | Occupied x => simp [isFreeAt, Occupation.isFree] at h
    | succ p =>
      have hp : isFreeAt rest p = true := by simpa [isFreeAt] using h
      have := ih hp
      cases ec <;> simp [countOccupied] <;> omega

theorem len_eq_length_iff {m : SlotMapVec T} (hinv : Inv m) :
    m.next_free = m.entries.length ↔ m.len = m.entries.length := by
  obtain ⟨ps, hch, hnd, hmem⟩ := hinv.chain
  constructor
  · intro hb
    rw [hb] at hch
    have hps := hch.eq_nil
    subst hps
    rw [hinv.len_eq]
    refine countOccupied_eq_length_of_no_free ?_
    intro p
    cases hf : isFreeAt m.entries p with
    | false => rfl
    | true => exact absurd ((hmem p).mpr hf) (List.not_mem_nil p)
  · intro hl
    by_contra hb
    rcases hch.head_cases with ⟨h1, _⟩ | ⟨e, next, ps', he, hfree, hps, rest⟩
    · exact hb h1
    · have hf : isFreeAt m.entries m.next_free = true := by
        simp [isFreeAt, he, hfree, Occupation.isFree]
      have := countOccupied_lt_of_free hf
      rw [hinv.len_eq] at hl
      omega

theorem insert_stuck_none (m : SlotMapVec T) (v : T)
    (hb : m.next_free ≠ m.entries.length)
    (hp : m.entries[m.next_free]? = none) : m.insert v = none := by
  simp [insert, hb, hp]

theorem insert_stuck_occupied (m : SlotMapVec T) (v : T) (prev : Entry T) (x : T)
    (hb : m.next_free ≠ m.entries.length)
    (hp : m.entries[m.next_free]? = some prev)
    (hc : prev.content = Occupation.Occupied x) : m.insert v = none := by
  simp [insert, hb, hp, hc]

theorem insertMany_cons (m : SlotMapVec T) (v : T) (vs : List T)
    (m₁ : SlotMapVec T) (k : SlotMapIndex) (hi : m.insert v = some (m₁, k)) :
    insertMany m (v :: vs) = insertMany m₁ vs := by
  simp [insertMany, hi]

theorem removeAll_cons (m : SlotMapVec T) (k : SlotMapIndex)
    (ks : List SlotMapIndex) (x : T) (m₁ : SlotMapVec T)
    (hr : m.remove k = (some x, m₁)) :
    removeAll m (k :: ks) = removeAll m₁ ks := by
  simp [removeAll, hr]

theorem removeAll_cons_fail (m : SlotMapVec T) (k : SlotMapIndex)
    (ks : List SlotMapIndex) (m₁ : SlotMapVec T)
    (hr : m.remove k = (none, m₁)) :
    removeAll m (k :: ks) = none := by
  simp [removeAll, hr]

theorem insertMany_stats {m m' : SlotMapVec T} {vs : List T} (hinv : Inv m)
    (h : insertMany m vs = some m') :
    Inv m' ∧ m'.len = m.len + vs.length ∧
      m'.entries.length = max m.entries.length (m.len + vs.length) := by
  induction vs generalizing m with
  | nil =>
    have hm : m' = m := by simpa [insertMany] using h.symm
    have hle : m.len ≤ m.entries.length := by
      rw [hinv.len_eq]
      exact countOccupied_le_length _
    rw [hm]
    refine ⟨hinv, by simp, ?_⟩
    simp
    omega
  | cons v vs ih =>
    obtain ⟨m₁, k, heq, hinv₁, _, hlen₁, _, _, hgrow, hreuse⟩ :=
      insert_total hinv v
    rw [insertMany_cons m v vs m₁ k heq] at h
    obtain ⟨hinv', hlen', hstore'⟩ := ih hinv₁ h
    refine ⟨hinv', by rw [hlen', hlen₁]; simp; omega, ?_⟩
    by_cases hb : m.next_free = m.entries.length
    · have hfull : m.len = m.entries.length := (len_eq_length_iff hinv).mp hb
      have hst : m₁.entries.length = m.entries.length + 1 := (hgrow hb).1
      rw [hstore', hst, hlen₁, hfull]
      simp
      omega
    · have hnotfull : m.len ≠ m.entries.length :=
        fun hc => hb ((len_eq_length_iff hinv).mpr hc)
      have hle : m.len ≤ m.entries.length := by
        rw [hinv.len_eq]
        exact countOccupied_le_length _
      have hst : m₁.entries.length = m.entries.length := (hreuse hb).1
      rw [hstore', hst, hlen₁]
      simp
      omega

theorem removeAll_stats {m m' : SlotMapVec T} {ks : List SlotMapIndex}
    (hinv : Inv m) (h : removeAll m ks = some m') :
    Inv m' ∧ m'.entries.length = m.entries.length ∧
      m'.len + ks.length = m.len := by
  induction ks generalizing m with
  | nil =>
    have hm : m' = m := by simpa [removeAll] using h.symm
    rw [hm]
    exact ⟨hinv, rfl, by simp⟩
  | cons k ks ih =>
    rcases hr : m.remove k with ⟨o, m₁⟩
    cases o with
    | none =>
      rw [removeAll_cons_fail m k ks m₁ hr] at h
      cases h
    | some x =>
      rw [removeAll_cons m k ks x m₁ hr] at h
      have hrt := remove_total hinv k
      rw [hr] at hrt
      obtain ⟨hinv₁, hlen₁, hl₁⟩ := hrt
      obtain ⟨hinv', hlen', hl'⟩ := ih hinv₁ h
      have hstep := hl₁ x rfl
      refine ⟨hinv', hlen'.trans hlen₁, ?_⟩
      simp only [List.length_cons]
      omega

/-! ### Concrete example states (used to instantiate the claims) -/

/-- The one-entry state reached by inserting `5` into a new container. -/
def exA : SlotMapVec Nat :=
  { entries := [{ version := 0, content := .Occupied 5 }], next_free := 1, len := 1 }

/-- The state reached from `exA` by removing the handle (0, 0): one free
entry heading the free list. -/
def exB : SlotMapVec Nat :=
  { entries := [{ version := 0, content := .Free 1 }], next_free := 0, len := 0 }

/-- The state reached from `exB` by inserting `7`: slot 0 reused at
version 1. -/
def exC : SlotMapVec Nat :=
  { entries := [{ version := 1, content := .Occupied 7 }], next_free := 1, len := 1 }

/-- The state reached from `exA` by inserting `7`: two occupied entries. -/
def exA2 : SlotMapVec Nat :=
  { entries := [{ version := 0, content := .Occupied 5 },
                { version := 0, content := .Occupied 7 }],
    next_free := 2, len := 2 }

theorem exA_step : Step (new Nat) exA :=
  Step.ins 5
    (show (new Nat).insert 5 = some (exA, { slot := 0, version := 0 }) by decide)

theorem exA_reachable : Reachable exA :=
  Relation.ReflTransGen.single exA_step

theorem exB_step : Step exA exB := by
  have h : (exA.remove { slot := 0, version := 0 }).2 = exB := by decide
  exact h ▸ Step.rem { slot := 0, version := 0 }

theorem exB_reachable : Reachable exB :=
  Relation.ReflTransGen.tail exA_reachable exB_step

theorem exB_reachableH :
    ReachableH exB [({ slot := 0, version := 0 } : SlotMapIndex)] := by
  have h1 : ReachableH exA [({ slot := 0, version := 0 } : SlotMapIndex)] :=
    ReachableH.ins 5 ReachableH.base (by decide)
  have h2 : (exA.remove { slot := 0, version := 0 }).2 = exB := by decide
  exact h2 ▸ ReachableH.rem { slot := 0, version := 0 } h1

/-! ### The claims -/

/-- Claim C1: in every container state reachable from a new container by
insert/remove operations, `insert v` succeeds and returns a handle `k` such
that `get k` on the resulting state returns `v`. -/
theorem claim1_insert_get_roundtrip {T : Type} {m : SlotMapVec T}
    (hr : Reachable m) (v : T) :
    ∃ m' k, m.insert v = some (m', k) ∧ get m' k = some v := by
  obtain ⟨m', k, heq, _, _, _, hat, _⟩ := insert_total (inv_reachable hr) v
  exact ⟨m', k, heq, get_eq_some_iff.mpr hat⟩

/-- Witness for C1 at the concrete state `exA` and value 42. -/
theorem claim1_witness :
    ∃ m' k, exA.insert 42 = some (m', k) ∧ get m' k = some 42 :=
  claim1_insert_get_roundtrip exA_reachable 42

/-- Claim C3: `remove` is all-or-nothing.  An invalid handle (out of range,
stale version, or free slot — i.e. `contains` is false) returns `none` and
leaves the state unchanged; a successful removal returns the stored value,
after which `get`/`contains` fail on that handle and a second `remove` is a
no-op returning `none`. -/
theorem claim3_remove_all_or_nothing {T : Type} (m : SlotMapVec T)
    (k : SlotMapIndex) :
    (contains m k = false → m.remove k = (none, m)) ∧
    (∀ v m', m.remove k = (some v, m') →
      get m k = some v ∧ get m' k = none ∧ contains m' k = false ∧
      m'.remove k = (none, m')) := by
  refine ⟨remove_fail m k, ?_⟩
  intro v m' heq
  rcases remove_cases m k with hfail | ⟨⟨w, c⟩, x, he, hv, hc, hsucc⟩
  · rw [hfail] at heq
    simp at heq
  · have hw : w = k.version := hv
    subst hw
    have hcx : c = Occupation.Occupied x := hc
    subst hcx
    rw [hsucc] at heq
    simp only [Prod.mk.injEq, Option.some.injEq] at heq
    obtain ⟨hx, hm⟩ := heq
    subst hx
    subst hm
    have hlt : k.slot < m.entries.length := (List.getElem?_eq_some.mp he).1
    have hset : (m.entries.set k.slot
        { version := k.version, content := Occupation.Free m.next_free })[k.slot]?
        = some { version := k.version, content := Occupation.Free m.next_free } :=
      List.getElem?_set_self hlt
    refine ⟨get_eq_some_iff.mpr he, ?_, ?_, ?_⟩
    · simp [get, hset]
    · simp [contains, hset]
    · exact remove_fail _ k (by simp [contains, hset])

/-- Witness for C3: removing handle (0, 0) from `exA` succeeds with value 5
and yields `exB`, on which the handle is dead. -/
theorem claim3_witness :
    get exA { slot := 0, version := 0 } = some 5 ∧
    get exB { slot := 0, version := 0 } = none ∧
    contains exB { slot := 0, version := 0 } = false ∧
    exB.remove { slot := 0, version := 0 } = (none, exB) :=
  (claim3_remove_all_or_nothing exA { slot := 0, version := 0 }).2 5 exB
    (by decide)

/-- Claim C5: `iter` yields exactly the set of (handle, value) pairs for
which `contains` is true — equivalently, the pairs on which `get` succeeds —
each exactly once, in strictly increasing position order; the traversal is
a finite list with one item per occupied entry.  (Proved for every state,
reachable or not.) -/
theorem claim5_iteration_completeness {T : Type} (m : SlotMapVec T) :
    (∀ k v, (k, v) ∈ m.iter ↔ get m k = some v) ∧
    (∀ k, contains m k = true ↔ ∃ v, (k, v) ∈ m.iter) ∧
    m.iter.Pairwise (fun a b => a.1.slot < b.1.slot) ∧
    m.iter.length = countOccupied m.entries := by
  refine ⟨fun k v => mem_iter_iff, fun k => ?_, iterFrom_pairwise,
    iterFrom_length _ 0⟩
  simp [contains_iff_get, mem_iter_iff]

/-- Claim C6: in every reachable state, the stored `len` field equals the
number of `Occupied` entries (which is also the number of items `iter`
yields, i.e. the number of currently valid handles), is at most the storage
length, and `is_empty` holds exactly when it is zero. -/
theorem claim6_len_invariant {T : Type} {m : SlotMapVec T} (hr : Reachable m) :
    m.len = countOccupied m.entries ∧
    m.len ≤ m.entries.length ∧
    m.iter.length = m.len ∧
    (m.is_empty = true ↔ m.len = 0) := by
  have hinv := inv_reachable hr
  refine ⟨hinv.len_eq, ?_, ?_, ?_⟩
  · rw [hinv.len_eq]
    exact countOccupied_le_length _
  · rw [iter, iterFrom_length, hinv.len_eq]
  · simp [is_empty]

/-- Witness for C6 at the concrete reachable state `exA`. -/
theorem claim6_witness :
    exA.len = countOccupied exA.entries ∧
    exA.len ≤ exA.entries.length ∧
    exA.iter.length = exA.len ∧
    (exA.is_empty = true ↔ exA.len = 0) :=
  claim6_len_invariant exA_reachable

/-- Claim C7: free-list well-formedness is preserved by every operation: in
every reachable state the chain from `next_free` visits every free entry
exactly once and ends at `entries.length`; hence when insert takes the reuse
branch the entry at `next_free` is `Free`, and `insert` never reaches the
fatal `"inconsistent internal state"` panic (never returns `none`). -/
theorem claim7_freelist_wf {T : Type} {m : SlotMapVec T} (hr : Reachable m) :
    (∃ ps : List Nat,
      FreeChain m.entries m.next_free ps ∧ ps.Nodup ∧
      ∀ p, p ∈ ps ↔ isFreeAt m.entries p = true) ∧
    (m.next_free ≠ m.entries.length → isFreeAt m.entries m.next_free = true) ∧
    (∀ v, ∃ m' k, m.insert v = some (m', k)) := by
  have hinv := inv_reachable hr
  refine ⟨hinv.chain, ?_, ?_⟩
  · intro hne
    obtain ⟨ps, hch, _, _⟩ := hinv.chain
    rcases hch.head_cases with ⟨h1, _⟩ | ⟨e, next, ps', he, hfree, _, _⟩
    · exact absurd h1 hne
    · simp [isFreeAt, he, hfree, Occupation.isFree]
  · intro v
    obtain ⟨m', k, heq, _⟩ := insert_total hinv v
    exact ⟨m', k, heq⟩

/-- Witness for C7 at the concrete reachable state `exB`, whose free list is
non-empty. -/
theorem claim7_witness :
    (∃ ps : List Nat,
      FreeChain exB.entries exB.next_free ps ∧ ps.Nodup ∧
      ∀ p, p ∈ ps ↔ isFreeAt exB.entries p = true) ∧
    (exB.next_free ≠ exB.entries.length →
      isFreeAt exB.entries exB.next_free = true) ∧
    (∀ v, ∃ m' k, exB.insert v = some (m', k)) :=
  claim7_freelist_wf exB_reachable

/-- Claim C8: the unchecked indexed accessors perform exactly the `get`
lookup: where `get` returns a value they return the same value, and where
`get` is absent they panic (modelled as `none`) instead of returning
anything. -/
theorem claim8_index_agrees_get {T : Type} (m : SlotMapVec T)
    (k : SlotMapIndex) :
    m.index k = get m k ∧ m.index_mut k = get m k := by
  constructor
  · unfold index get
    cases he : m.entries[k.slot]? with
    | none => rfl
    | some e =>
      obtain ⟨w, c⟩ := e
      cases c with
      | Free n => rfl
      | Occupied x => by_cases hv : w = k.version <;> simp [hv]
  · unfold index_mut get
    cases he : m.entries[k.slot]? with
    | none => rfl
    | some e =>
      obtain ⟨w, c⟩ := e
      cases c with
      | Free n => rfl
      | Occupied x => by_cases hv : w = k.version <;> simp [hv]

/-- Claim C10: the `Default` construction is `new()`, which is
`with_capacity(0)`: the empty container with no entries, `len` 0 and
`next_free` 0 — so all three constructors yield the identical state and all
subsequent behaviour coincides. -/
theorem claim10_default_eq_new (T : Type) :
    mkDefault T = new T ∧ new T = with_capacity T 0 ∧
    (mkDefault T).entries = [] ∧ (mkDefault T).len = 0 ∧
    (mkDefault T).next_free = 0 :=
  ⟨rfl, rfl, rfl, rfl, rfl⟩

/-- Claim C2: when `insert` reuses a freed slot (the free list is non-empty,
so `next_free ≠ entries.length`), the returned handle sits at `next_free`
and carries a version strictly greater than that of every handle previously
issued by `insert` for that slot; consequently every such older handle fails
`contains` and `get` in the new state and in every state reachable from it. -/
theorem claim2_version_discrimination {T : Type} {m m' : SlotMapVec T}
    {hs : List SlotMapIndex} {k : SlotMapIndex} {v : T}
    (hr : ReachableH m hs)
    (hne : m.next_free ≠ m.entries.length)
    (hins : m.insert v = some (m', k)) :
    k.slot = m.next_free ∧
    ∀ h ∈ hs, h.slot = k.slot →
      h.version < k.version ∧
      ∀ m'', ReachFrom m' m'' →
        contains m'' h = false ∧ get m'' h = none := by
  obtain ⟨hinv, hall⟩ := reachableH_inv hr
  obtain ⟨m₂, k₂, heq', hinv', hslot, _, hat, _, _, hreuse⟩ :=
    insert_total hinv v
  obtain ⟨h1, h2⟩ := insert_eq_elim heq' hins
  subst h1
  subst h2
  refine ⟨hslot, ?_⟩
  intro h hmem hsl
  have hok := hall h hmem
  have hv1 := (hreuse hne).2
  have hb := hok.2
  rw [hsl, hslot] at hb
  have hlt : h.version < k₂.version := by rw [hv1]; omega
  refine ⟨hlt, ?_⟩
  intro m'' hreach
  have hvm : versionAt m₂.entries h.slot = k₂.version := by
    rw [hsl]
    simp [versionAt, hat]
  have hmono := reachFrom_mono hinv' hreach
  have hfinal : h.version < versionAt m''.entries h.slot := by
    have h3 := hmono.2 h.slot
    omega
  exact contains_false_of_version_lt hfinal

/-- Witness for C2: reusing the freed slot 0 of `exB` issues handle (0, 1),
strictly newer than the previously issued handle (0, 0), which stays dead
forever after. -/
theorem claim2_witness :
    ({ slot := 0, version := 1 } : SlotMapIndex).slot = exB.next_free ∧
    ∀ h ∈ [({ slot := 0, version := 0 } : SlotMapIndex)],
      h.slot = ({ slot := 0, version := 1 } : SlotMapIndex).slot →
      h.version < ({ slot := 0, version := 1 } : SlotMapIndex).version ∧
      ∀ m'', ReachFrom exC m'' →
        contains m'' h = false ∧ get m'' h = none :=
  claim2_version_discrimination exB_reachableH (by decide)
    (show exB.insert 7 = some (exC, { slot := 0, version := 1 }) by decide)

/-- Claim C4: starting from an empty container, after inserting the values
`vs`, successfully removing the handles `ks`, and inserting `ks.length`
further values, the backing storage length does not exceed `vs.length`: the
later insertions reuse the freed slots. -/
theorem claim4_no_premature_growth {T : Type} {vs ws : List T}
    {ks : List SlotMapIndex} {m1 m2 m3 : SlotMapVec T}
    (h1 : insertMany (new T) vs = some m1)
    (h2 : removeAll m1 ks = some m2)
    (hK : ws.length = ks.length)
    (h3 : insertMany m2 ws = some m3) :
    m3.entries.length ≤ vs.length := by
  obtain ⟨hinv1, hlen1, hstore1⟩ := insertMany_stats inv_new h1
  obtain ⟨hinv2, hstore2, hlen2⟩ := removeAll_stats hinv1 h2
  obtain ⟨_, _, hstore3⟩ := insertMany_stats hinv2 h3
  simp [new, with_capacity] at hlen1 hstore1
  omega

/-- The two-entry state reached by inserting 1 and 2 into a new container. -/
def exD2 : SlotMapVec Nat :=
  { entries := [{ version := 0, content := .Occupied 1 },
                { version := 0, content := .Occupied 2 }],
    next_free := 2, len := 2 }

/-- The state reached from `exD2` by removing handle (0, 0). -/
def exD3 : SlotMapVec Nat :=
  { entries := [{ version := 0, content := .Free 2 },
                { version := 0, content := .Occupied 2 }],
    next_free := 0, len := 1 }

/-- The state reached from `exD3` by inserting 9 (slot 0 reused). -/
def exD4 : SlotMapVec Nat :=
  { entries := [{ version := 1, content := .Occupied 9 },
                { version := 0, content := .Occupied 2 }],
    next_free := 2, len := 2 }

/-- Witness for C4: insert two values, remove one, insert one more — the
storage length stays at most 2. -/
theorem claim4_witness : exD4.entries.length ≤ 2 :=
  @claim4_no_premature_growth Nat [1, 2] [9]
    [{ slot := 0, version := 0 }] exD2 exD3 exD4
    (by decide) (by decide) (by decide) (by decide)

/-- Claim C9: handles are stable across operations on other entries: a valid
handle keeps its value — indeed its whole entry, version included — across
any successful `insert`, and across any `remove` of a handle at a different
position. -/
theorem claim9_handle_stability {T : Type} {m : SlotMapVec T}
    {h : SlotMapIndex} {v : T} (hv : get m h = some v) :
    (∀ w m' k, m.insert w = some (m', k) →
      get m' h = some v ∧ contains m' h = true ∧
      m'.entries[h.slot]? = m.entries[h.slot]?) ∧
    (∀ h', h'.slot ≠ h.slot →
      get (m.remove h').2 h = some v ∧ contains (m.remove h').2 h = true ∧
      (m.remove h').2.entries[h.slot]? = m.entries[h.slot]?) := by
  have he := get_eq_some_iff.mp hv
  have hlt : h.slot < m.entries.length := (List.getElem?_eq_some.mp he).1
  constructor
  · intro w m' k hins
    by_cases hb : m.next_free = m.entries.length
    · rw [insert_grow m w hb] at hins
      simp only [Option.some.injEq, Prod.mk.injEq] at hins
      obtain ⟨hm, hk⟩ := hins
      subst hm
      have hne2 : h.slot ≠ m.entries.length := by omega
      have hfr : (m.entries ++
          [({ version := 0, content := Occupation.Occupied w } : Entry T)])[h.slot]?
          = m.entries[h.slot]? := getElem?_concat_ne _ _ _ hne2
      exact ⟨get_eq_some_iff.mpr (hfr.trans he),
        contains_eq_true_iff.mpr ⟨v, hfr.trans he⟩, hfr⟩
    · cases hp : m.entries[m.next_free]? with
      | none =>
        rw [insert_stuck_none m w hb hp] at hins
        cases hins
      | some prev =>
        cases hpc : prev.content with
        | Occupied x =>
          rw [insert_stuck_occupied m w prev x hb hp hpc] at hins
          cases hins
        | Free next =>
          rw [insert_reuse m w prev next hb hp hpc] at hins
          simp only [Option.some.injEq, Prod.mk.injEq] at hins
          obtain ⟨hm, hk⟩ := hins
          subst hm
          have hsl : h.slot ≠ m.next_free := by
            intro hcontra
            rw [← hcontra, he] at hp
            simp only [Option.some.injEq] at hp
            rw [← hp] at hpc
            simp at hpc
          have hfr : (m.entries.set m.next_free
              { version := prev.version + 1,
                content := Occupation.Occupied w })[h.slot]?
              = m.entries[h.slot]? :=
            List.getElem?_set_ne (fun hh => hsl hh.symm)
          exact ⟨get_eq_some_iff.mpr (hfr.trans he),
            contains_eq_true_iff.mpr ⟨v, hfr.trans he⟩, hfr⟩
  · intro h' hne
    rcases remove_cases m h' with hfail | ⟨e, x, hre, hrv, hrc, hsucc⟩
    · rw [hfail]
      exact ⟨hv, contains_eq_true_iff.mpr ⟨v, he⟩, rfl⟩
    · rw [hsucc]
      have hfr : (m.entries.set h'.slot
          { version := e.version, content := Occupation.Free m.next_free })[h.slot]?
          = m.entries[h.slot]? :=
        List.getElem?_set_ne hne
      exact ⟨get_eq_some_iff.mpr (hfr.trans he),
        contains_eq_true_iff.mpr ⟨v, hfr.trans he⟩, hfr⟩

/-- The three-entry state reached from `exA2` by inserting 9. -/
def exA3 : SlotMapVec Nat :=
  { entries := [{ version := 0, content := .Occupied 5 },
                { version := 0, content := .Occupied 7 },
                { version := 0, content := .Occupied 9 }],
    next_free := 3, len := 3 }

/-- Witness for C9: handle (0, 0) of `exA2` keeps value 5 after inserting 9
and after removing the handle at slot 1. -/
theorem claim9_witness :
    get exA3 { slot := 0, version := 0 } = some 5 ∧
    contains exA3 { slot := 0, version := 0 } = true ∧
    get (exA2.remove { slot := 1, version := 0 }).2 { slot := 0, version := 0 }
      = some 5 := by
  have hthm := claim9_handle_stability
    (show get exA2 { slot := 0, version := 0 } = some 5 by decide)
  refine ⟨?_, ?_, ?_⟩
  · exact (hthm.1 9 exA3 { slot := 2, version := 0 } (by decide)).1
  · exact (hthm.1 9 exA3 { slot := 2, version := 0 } (by decide)).2.1
  · exact (hthm.2 { slot := 1, version := 0 } (by decide)).1

end SlotMapVec

end SlotMapVecSpec
